import Mathlib

/-!
Verification development for the `VGset` module (`src/vg_set.cpp`): operations
over a set of variation graphs stored as independent files.  The C++ code is
shallowly embedded: graphs, file systems, streams and tables become explicit
functional data, stateful loops become folds, 64-bit node identifiers become
`Int` (no arithmetic here can overflow 64 bits on the inputs considered), and
fallible file opening is threaded as an explicit error component.
-/

namespace VGset

/-! ## File store and traversals (`VGset::transform`, `VGset::for_each`)

A file system is an association list from file name to decoded content.  The
caller-supplied lambda of the C++ traversals may capture state (e.g. the
running maximum in `merge_id_space`), so it is modelled as a state transformer.
The special name `-` reads the standard-input graph (modelled as a fixed value
supplied to the traversal); note that the C++ write-back path of `transform`
opens an `ofstream` on the literal name, so a file called `-` is written. -/

/-- Read a named file: first entry with that name, as `ifstream` open succeeds
only when the file exists. -/
def fsRead {α : Type} : List (String × α) → String → Option α
  | [], _ => none
  | e :: rest, n => if e.1 = n then some e.2 else fsRead rest n

/-- Write a named file (`ofstream`): overwrite the existing entry or create it. -/
def fsWrite {α : Type} : List (String × α) → String → α → List (String × α)
  | [], n, g => [(n, g)]
  | e :: rest, n, g => if e.1 = n then (n, g) :: rest else e :: fsWrite rest n g

/-- `VGset::transform`: for each name in order, load the graph (from standard
input when the name is `-`, else from the file, throwing
`"failed to open " ++ name` when it is absent), apply the lambda, and serialize
the result back over the same name.  Returns the final lambda state, the final
file system, and the error message if one was thrown. -/
def transform {σ α : Type} (lam : σ → α → σ × α) :
    σ → α → List (String × α) → List String → σ × List (String × α) × Option String
  | s, _, fs, [] => (s, fs, none)
  | s, stdin, fs, n :: rest =>
    if n = "-" then
      let p := lam s stdin
      transform lam p.1 stdin (fsWrite fs n p.2) rest
    else
      match fsRead fs n with
      | none => (s, fs, some ("failed to open " ++ n))
      | some g =>
        let p := lam s g
        transform lam p.1 stdin (fsWrite fs n p.2) rest

/-- `VGset::for_each`: read-only traversal, same loading protocol as
`transform` but without the write-back. -/
def for_each {σ α : Type} (act : σ → α → σ) :
    σ → α → List (String × α) → List String → σ × Option String
  | s, _, _, [] => (s, none)
  | s, stdin, fs, n :: rest =>
    if n = "-" then
      for_each act (act s stdin) stdin fs rest
    else
      match fsRead fs n with
      | none => (s, some ("failed to open " ++ n))
      | some g => for_each act (act s g) stdin fs rest

/-! ## Identifier-space merging (`VGset::merge_id_space`)

For identifier merging only the multiset of node identifiers of each graph
matters, so a graph is a `List Int` of node identifiers. -/

/-- Modelled from the spec: `VG::max_node_id` (declared outside `src/`) returns
the graph's highest node identifier, `0` for an empty graph. -/
def maxNodeId (g : List Int) : Int := g.foldl max 0

/-- Modelled from the spec: `VG::increment_node_ids` (declared outside `src/`)
shifts every node identifier upward by the given amount. -/
def increment_node_ids (g : List Int) (d : Int) : List Int := g.map (· + d)

/-- The fold that `merge_id_space`'s lambda performs over the successively
loaded graphs: with running maximum `m`, shift the graph when `m > 0`, then set
the running maximum to the (possibly shifted) graph's highest identifier.
Returns the final running maximum and the rewritten graphs in order. -/
def mergeGo : Int → List (List Int) → Int × List (List Int)
  | m, [] => (m, [])
  | m, g :: rest =>
    let g' := if 0 < m then increment_node_ids g m else g
    ((mergeGo (maxNodeId g') rest).1, g' :: (mergeGo (maxNodeId g') rest).2)

/-- `VGset::merge_id_space`: runs the mutating traversal with running maximum
initially `0`.  The second component is the sequence of rewritten file
contents. -/
def merge_id_space (gs : List (List Int)) : Int × List (List Int) := mergeGo 0 gs

/-! ## Path splitting (`VGset::to_xg`)

Decoded stream chunks are protobuf `Graph` messages; only their `path` entries
are inspected, all other content is forwarded untouched (modelled by a `nodes`
field).  A `Mapping` is one step of a path: its payload is reduced to the
mapped node identifier plus the `rank` field that `to_xg` reads and writes.
The per-name rank table `map<string, map<int64_t, Mapping>>` and the output
`map<string, Path>` are modelled as key-sorted association lists, as `std::map`
is ordered; `operator[]` assignment becomes sorted insert-or-replace. -/

/-- Modelled from the spec: one step of a path, annotated with its `rank`;
the remaining payload is condensed into the mapped node identifier.  A
default-constructed (or moved-from) protobuf `Mapping` has all fields zero. -/
structure Mapping where
  node : Int
  rank : Int
  deriving DecidableEq, Repr

/-- Modelled from the spec: a named ordered sequence of mappings. -/
structure Path where
  name : String
  mappings : List Mapping
  deriving DecidableEq, Repr

/-- Modelled from the spec: one decoded chunk; non-path content is opaque. -/
structure Graph where
  nodes : List Int
  paths : List Path
  deriving DecidableEq, Repr

/-- The inner `map<int64_t, Mapping>` of `to_xg`, sorted by rank. -/
abbrev RankTable := List (Int × Mapping)

/-- The outer `map<string, map<int64_t, Mapping>>` of `to_xg`. -/
abbrev NameTable := List (String × RankTable)

/-- `mappings[name][rank] = m`: sorted insert-or-replace into the rank table. -/
def tableInsert : RankTable → Int → Mapping → RankTable
  | [], r, m => [(r, m)]
  | (k, v) :: rest, r, m =>
    if r < k then (r, m) :: (k, v) :: rest
    else if r = k then (r, m) :: rest
    else (k, v) :: tableInsert rest r m

/-- `(*table.rbegin()).first`: the last (largest, once sorted) rank key. -/
def lastRank : RankTable → Int
  | [] => 0
  | [(k, _)] => k
  | _ :: e :: rest => lastRank (e :: rest)

/-- Lexicographic order on character lists by code point, the order of
`std::string::operator<` used by `std::map<string, ...>`. -/
def strLtB : List Char → List Char → Bool
  | [], [] => false
  | [], _ :: _ => true
  | _ :: _, [] => false
  | c :: cs, d :: ds =>
    if c.toNat < d.toNat then true
    else if d.toNat < c.toNat then false
    else strLtB cs ds

/-- `std::string` comparison. -/
def strLt (a b : String) : Bool := strLtB a.data b.data

/-- Lookup `mappings[name]`, the empty table when the name is absent. -/
def tablesGet : NameTable → String → RankTable
  | [], _ => []
  | (n, t) :: rest, name => if name = n then t else tablesGet rest name

/-- Store `mappings[name] = t` (sorted insert-or-replace by name). -/
def tablesSet : NameTable → String → RankTable → NameTable
  | [], name, t => [(name, t)]
  | (n, u) :: rest, name, t =>
    if strLt name n then (name, t) :: (n, u) :: rest
    else if name = n then (name, t) :: rest
    else (n, u) :: tablesSet rest name t

/-- Lines 124-138 of `vg_set.cpp`: file one mapping of a taken path under its
rank, synthesizing the rank (`lastRank + 1`, or `1` for an empty table) when
the stored rank is 0. -/
def fileMapping (tbl : NameTable) (name : String) (m : Mapping) : NameTable :=
  let t := tablesGet tbl name
  let r := if m.rank = 0 then (if t.length > 0 then lastRank t + 1 else 1) else m.rank
  tablesSet tbl name (tableInsert t r { m with rank := r })

/-- File all mappings of one taken path, in order. -/
def filePath (tbl : NameTable) (p : Path) : NameTable :=
  p.mappings.foldl (fun tbl m => fileMapping tbl p.name m) tbl

/-- Lines 93-107: the loop partitioning a chunk's paths into
`(paths_taken, paths_kept)`, preserving the original relative order. -/
def splitPaths (tk : String → Bool) (ps : List Path) : List Path × List Path :=
  ps.foldl
    (fun acc p => if tk p.name then (acc.1 ++ [p], acc.2) else (acc.1, acc.2 ++ [p]))
    ([], [])

/-- One invocation of `handle_graph` on a decoded chunk: partition the paths,
forward the chunk rebuilt with only the kept paths, and file the mappings of
the taken paths.  The state is the rank table plus the forwarded chunk
stream.  `tk` is the `paths_to_take` selection (`regex_match` made abstract). -/
def handle_graph (tk : String → Bool) (st : NameTable × List Graph) (g : Graph) :
    NameTable × List Graph :=
  let taken := (splitPaths tk g.paths).1
  let kept := (splitPaths tk g.paths).2
  let g' : Graph := { g with paths := kept }
  (taken.foldl filePath st.1, st.2 ++ [g'])

/-- `removed_paths[name] = path` (`std::map` insert-or-replace by name). -/
def removedSet : List (String × Path) → String → Path → List (String × Path)
  | [], name, p => [(name, p)]
  | (n, q) :: rest, name, p =>
    if strLt name n then (name, p) :: (n, q) :: rest
    else if name = n then (name, p) :: rest
    else (n, q) :: removedSet rest name p

/-- Lines 149-161: reconstitute one rank table into a `Path` in key order.
Each stored mapping is moved out (`move(rank_and_mapping.second)`), which
leaves a default-valued protobuf message behind in the table. -/
def flattenAll (tbl : NameTable) (removed : List (String × Path)) :
    NameTable × List (String × Path) :=
  (tbl.map (fun e => (e.1, e.2.map (fun kv => (kv.1, ({ node := 0, rank := 0 } : Mapping))))),
   tbl.foldl (fun rm e => removedSet rm e.1 ⟨e.1, e.2.map (fun kv => kv.2)⟩) removed)

/-- Processing of one file inside `to_xg`'s callback: decode and handle every
chunk, then (still inside the per-file loop, lines 148-161) reconstitute the
entire accumulated table into `removed_paths`. -/
def processFile (tk : String → Bool)
    (st : NameTable × List Graph × List (String × Path)) (chunks : List Graph) :
    NameTable × List Graph × List (String × Path) :=
  let h := chunks.foldl (handle_graph tk) (st.1, st.2.1)
  let f := flattenAll h.1 st.2.2
  (f.1, h.2, f.2)

/-- `VGset::to_xg`: run the per-file loop over every file's chunk list,
starting from an empty table, an empty forwarded stream, and the (empty)
caller-supplied `removed_paths` map.  Returns the final rank table, the chunk
stream forwarded to the `xg` builder, and `removed_paths`. -/
def to_xg (tk : String → Bool) (files : List (List Graph)) :
    NameTable × List Graph × List (String × Path) :=
  files.foldl (processFile tk) ([], [], [])

/-! ## K-mer pipeline (`VGset::index_kmers`)

Each worker owns one buffer and appends only to it, so one worker's behaviour
is a sequential fold over the k-mer occurrences it enumerates.  An occurrence
is the argument tuple of `cache_kmer`: the k-mer string, the traversed node's
identifier, the offset, and the strand flag. -/

/-- Modelled from the spec: `allATGC` (declared outside `src/`) holds when the
k-mer consists only of the four canonical symbols. -/
def allATGC (s : String) : Bool :=
  s.data.all (fun c => c == 'A' || c == 'T' || c == 'G' || c == 'C')

/-- One buffered k-mer occurrence (`KmerMatch` message). -/
structure KmerMatch where
  sequence : String
  node_id : Int
  position : Int
  backward : Bool
  deriving DecidableEq, Repr

/-- One worker's state: its write buffer and the sequence of batched writes it
has issued to the key-value index, each an atomic `WriteBatch`. -/
structure KmerState where
  buffer : List KmerMatch
  writes : List (List KmerMatch)
  deriving DecidableEq, Repr

/-- `buffer_max_size = 100000`: how many k-mer entries to hold onto. -/
def buffer_max_size : Nat := 100000

/-- The `cache_kmer` lambda for one occurrence: drop non-ACGT k-mers, append
to the worker's buffer, and when the buffer's size exceeds the threshold issue
one inline batched write and clear the buffer. -/
def cache_kmer (st : KmerState) (kmer : String) (node_id p : Int) (bwd : Bool) :
    KmerState :=
  if allATGC kmer then
    let buf := st.buffer ++ [⟨kmer, node_id, p, bwd⟩]
    if buf.length > buffer_max_size then
      { buffer := [], writes := st.writes ++ [buf] }
    else
      { buffer := buf, writes := st.writes }
  else st

/-- Feed a sequence of enumerated occurrences through `cache_kmer`. -/
def run_kmers (st : KmerState) (ks : List (String × Int × Int × Bool)) : KmerState :=
  ks.foldl (fun st k => cache_kmer st k.1 k.2.1 k.2.2.1 k.2.2.2) st

/-- One worker's view of `index_kmers` for one graph: enumerate and buffer all
its occurrences, then flush the buffer once more (`write_buffer` after the
parallel loop, issued even when the remainder is empty). -/
def index_kmers_worker (ks : List (String × Int × Int × Bool)) : KmerState :=
  let st := run_kmers ⟨[], []⟩ ks
  { buffer := [], writes := st.writes ++ [st.buffer] }

/-! ## GCSA text export (`VGset::write_gcsa_out_old`, `write_gcsa_out_handle`)

Character streams are `List Char` (a `std::stringstream` is a character
sequence; `seekp(-1)` followed by a write overwrites the last character, i.e.
drops it before appending, and `pop_back` is `dropLast`).  An output stream is
a list of the records written to it. -/

/-- One k-mer occurrence as exported: k-mer, rendered `node:offset` position,
distinct predecessor and successor characters, and the rendered reachable next
positions (`KmerPosition`, declared outside `src/`, modelled from the spec). -/
structure KmerPosition where
  kmer : List Char
  pos : List Char
  prev_chars : List Char
  next_chars : List Char
  next_positions : List (List Char)
  deriving DecidableEq, Repr

/-- `for (auto c : chars) line << c << ','`. -/
def commaJoin (cs : List Char) : List Char := (cs.map (fun c => [c, ','])).flatten

/-- `for (auto& p : positions) line << p << ','`. -/
def commaJoinStrs (ps : List (List Char)) : List Char :=
  (ps.map (fun p => p ++ [','])).flatten

/-- The `write_kmer` lambda of `write_gcsa_out_old`: build the record
left-to-right; a non-empty character column has its trailing comma overwritten
by the following TAB (`seekp(-1)`), an empty one renders the `$` / `#`
sentinel; an empty next-position column appends `start_id:0`, a non-empty one
has its trailing comma popped. -/
def write_kmer_line (start_id : Int) (kp : KmerPosition) : List Char :=
  let col3 := if kp.prev_chars.isEmpty then ['$']
    else (commaJoin kp.prev_chars).dropLast
  let col4 := if kp.next_chars.isEmpty then ['#']
    else (commaJoin kp.next_chars).dropLast
  let pre := kp.kmer ++ ['\t'] ++ kp.pos ++ ['\t'] ++ col3 ++ ['\t'] ++ col4 ++ ['\t']
  let line := pre ++ commaJoinStrs kp.next_positions
  if kp.next_positions.isEmpty then line ++ (toString start_id).data ++ [':', '0']
  else line.dropLast

/-- Follows the spec's words: "comma-joined" with "no trailing comma"; used to
compare the built record against the specified column contents. -/
def commaSeparated : List (List Char) → List Char
  | [] => []
  | [x] => x
  | x :: y :: rest => x ++ [','] ++ commaSeparated (y :: rest)

/-- `VGset::write_gcsa_out_old` restricted to its output behaviour: the
per-occurrence records are written to the standard-output stream under a
critical section; the caller's `out` stream is threaded through unused.  The
result is `(out, cout)` after all occurrences. -/
def write_gcsa_out_old (start_id : Int) :
    List KmerPosition → List (List Char) → List (List Char) →
      List (List Char) × List (List Char)
  | [], out, cout => (out, cout)
  | kp :: rest, out, cout =>
    write_gcsa_out_old start_id rest out (cout ++ [write_kmer_line start_id kp])

/-- `VGset::write_gcsa_out_handle`: each enumerated k-mer record (rendered by
the collaborator's `operator<<`) is written to standard output; `out` is
threaded through unused. -/
def write_gcsa_out_handle :
    List (List Char) → List (List Char) → List (List Char) →
      List (List Char) × List (List Char)
  | [], out, cout => (out, cout)
  | k :: rest, out, cout => write_gcsa_out_handle rest out (cout ++ [k])

theorem foldl_max_init_le (l : List Int) : ∀ i : Int, i ≤ l.foldl max i := by
  induction l with
  | nil => intro i; exact le_refl i
  | cons x xs ih =>
    intro i
    exact le_trans (le_max_left i x) (ih (max i x))

theorem le_maxNodeId_of_mem {a : Int} {g : List Int} (h : a ∈ g) : a ≤ maxNodeId g := by
  unfold maxNodeId
  generalize (0 : Int) = i
  induction g generalizing i with
  | nil => cases h
  | cons x xs ih =>
    rcases List.mem_cons.mp h with h1 | h2
    · subst h1
      exact le_trans (le_max_right i a) (foldl_max_init_le xs (max i a))
    · exact ih h2 (max i x)

theorem maxNodeId_nonneg (g : List Int) : 0 ≤ maxNodeId g :=
  foldl_max_init_le g 0

theorem getLastD_irrel {α : Type} {l : List α} (h : l ≠ []) (d d' : α) :
    l.getLastD d = l.getLastD d' := by
  cases l with
  | nil => exact absurd rfl h
  | cons x xs => rw [List.getLastD_cons, List.getLastD_cons]

/-- Main invariant of the merging fold: starting from a nonnegative running
maximum and graphs with positive identifiers, the rewritten graphs have
positive identifiers, the first rewritten graph lies strictly above the
initial running maximum, consecutive rewritten graphs are strictly increasing,
lengths are preserved, and (for a non-empty list) the returned value is the
highest identifier of the last rewritten graph. -/
theorem mergeGo_spec (gs : List (List Int)) : ∀ m : Int, 0 ≤ m →
    (∀ g ∈ gs, ∀ a ∈ g, 0 < a) →
    (∀ g ∈ (mergeGo m gs).2, ∀ a ∈ g, 0 < a) ∧
    (∀ h ∈ (mergeGo m gs).2.head?, ∀ a ∈ h, m < a) ∧
    List.Chain' (fun x y => ∀ a ∈ x, ∀ b ∈ y, a < b) (mergeGo m gs).2 ∧
    (mergeGo m gs).2.length = gs.length ∧
    (gs ≠ [] → (mergeGo m gs).1 = maxNodeId ((mergeGo m gs).2.getLastD [])) := by
  induction gs with
  | nil =>
    intro m _ _
    refine ⟨?_, ?_, ?_, ?_, ?_⟩
    · intro g hg; simp [mergeGo] at hg
    · intro h hh; simp [mergeGo] at hh
    · simp [mergeGo]
    · simp [mergeGo]
    · intro h; exact absurd rfl h
  | cons g rest ih =>
    intro m hm hpos
    simp only [mergeGo]
    set g' : List Int := if 0 < m then increment_node_ids g m else g with hg'
    have hgpos : ∀ a ∈ g, 0 < a := hpos g (List.mem_cons_self g rest)
    have hg'pos : ∀ a ∈ g', 0 < a := by
      intro a ha
      by_cases h0 : 0 < m
      · rw [hg', if_pos h0] at ha
        simp only [increment_node_ids, List.mem_map] at ha
        obtain ⟨b, hb, rfl⟩ := ha
        have := hgpos b hb
        omega
      · rw [hg', if_neg h0] at ha
        exact hgpos a ha
    have hg'gt : ∀ a ∈ g', m < a := by
      intro a ha
      by_cases h0 : 0 < m
      · rw [hg', if_pos h0] at ha
        simp only [increment_node_ids, List.mem_map] at ha
        obtain ⟨b, hb, rfl⟩ := ha
        have := hgpos b hb
        omega
      · have hm0 : m = 0 := le_antisymm (not_lt.mp h0) hm
        rw [hm0]
        exact hg'pos a ha
    have hrestpos : ∀ h ∈ rest, ∀ a ∈ h, 0 < a := fun h hh =>
      hpos h (List.mem_cons_of_mem g hh)
    obtain ⟨ihpos, ihhead, ihchain, ihlen, ihmax⟩ :=
      ih (maxNodeId g') (maxNodeId_nonneg g') hrestpos
    refine ⟨?_, ?_, ?_, ?_, ?_⟩
    · intro h hh a ha
      rcases List.mem_cons.mp hh with h1 | h2
      · exact hg'pos a (h1 ▸ ha)
      · exact ihpos h h2 a ha
    · intro h hh a ha
      simp only [List.head?_cons, Option.mem_def, Option.some.injEq] at hh
      exact hg'gt a (hh ▸ ha)
    · rw [List.chain'_cons']
      refine ⟨?_, ihchain⟩
      intro y hy a ha b hb
      have h1 : a ≤ maxNodeId g' := le_maxNodeId_of_mem ha
      have h2 : maxNodeId g' < b := ihhead y hy b hb
      omega
    · simp [ihlen]
    · intro _
      by_cases hrest : rest = []
      · subst hrest
        simp [mergeGo, List.getLastD_cons]
      · have hne : (mergeGo (maxNodeId g') rest).2 ≠ [] := by
          intro h
          rw [h] at ihlen
          exact hrest (List.length_eq_zero.mp ihlen.symm)
        rw [List.getLastD_cons, ihmax hrest, getLastD_irrel hne g' []]

/-- C1: after `merge_id_space` on any non-empty file list of graphs with
positive node identifiers, successive files' identifier ranges are disjoint
and increasing (every identifier of file `i+1` exceeds every identifier of
file `i`, each later graph having been shifted by the running maximum), the
number of files is unchanged, and the call returns the final running maximum,
i.e. the highest identifier of the last rewritten graph. -/
theorem c1_merge_disjoint_ranges (gs : List (List Int))
    (hpos : ∀ g ∈ gs, ∀ a ∈ g, 0 < a) :
    List.Chain' (fun x y => ∀ a ∈ x, ∀ b ∈ y, a < b) (merge_id_space gs).2 ∧
    (merge_id_space gs).2.length = gs.length ∧
    (gs ≠ [] →
      (merge_id_space gs).1 = maxNodeId ((merge_id_space gs).2.getLastD [])) := by
  obtain ⟨_, _, hchain, hlen, hmax⟩ := mergeGo_spec gs 0 (le_refl 0) hpos
  exact ⟨hchain, hlen, hmax⟩

/-- Witness for C1 at the concrete file list `[[1, 2], [1]]`. -/
theorem c1_merge_disjoint_ranges_witness :
    List.Chain' (fun x y => ∀ a ∈ x, ∀ b ∈ y, a < b)
      (merge_id_space [[1, 2], [1]]).2 ∧
    (merge_id_space [[1, 2], [1]]).2.length = [[1, 2], [1]].length ∧
    (([[1, 2], [1]] : List (List Int)) ≠ [] →
      (merge_id_space [[1, 2], [1]]).1 =
        maxNodeId ((merge_id_space [[1, 2], [1]]).2.getLastD [])) :=
  c1_merge_disjoint_ranges [[1, 2], [1]] (by decide)

/-- C8: `merge_id_space` shifts a graph only when the running maximum is
strictly positive: the first graph is never shifted, the empty list returns 0
with no file operation, a non-positive running maximum leaves the next graph
unshifted, a positive one shifts it by exactly the running maximum, and in
`[[10], [], [5]]` the graph after the empty graph stays unshifted even though
an earlier file used positive identifiers. -/
theorem c8_merge_shift_only_when_positive :
    merge_id_space ([] : List (List Int)) = (0, []) ∧
    (∀ (g : List Int) (gs : List (List Int)),
      (merge_id_space (g :: gs)).2.headD [] = g) ∧
    (∀ (m : Int) (g : List Int) (gs : List (List Int)), ¬ 0 < m →
      (mergeGo m (g :: gs)).2.headD [] = g) ∧
    (∀ (m : Int) (g : List Int) (gs : List (List Int)), 0 < m →
      (mergeGo m (g :: gs)).2.headD [] = increment_node_ids g m) ∧
    merge_id_space [[10], [], [5]] = (5, [[10], [], [5]]) := by
  refine ⟨rfl, ?_, ?_, ?_, by decide⟩
  · intro g gs
    simp [merge_id_space, mergeGo, show ¬(0 : Int) < 0 by decide]
  · intro m g gs h
    simp [mergeGo, if_neg h]
  · intro m g gs h
    simp [mergeGo, if_pos h]

/-- Witness for C8 at running maximum 0 and graph `[7]`. -/
theorem c8_merge_shift_only_when_positive_witness :
    (mergeGo 0 ([7] :: [])).2.headD [] = [7] :=
  c8_merge_shift_only_when_positive.2.2.1 0 [7] [] (by decide)

theorem fsRead_fsWrite {α : Type} (fs : List (String × α)) (m n : String) (g : α) :
    fsRead (fsWrite fs m g) n = if m = n then some g else fsRead fs n := by
  induction fs with
  | nil => simp [fsWrite, fsRead]
  | cons e rest ih =>
    by_cases he : e.1 = m
    · simp only [fsWrite, if_pos he, fsRead]
      by_cases h2 : m = n
      · simp [h2]
      · simp only [if_neg h2]
        rw [if_neg (by rw [he]; exact h2)]
    · simp only [fsWrite, if_neg he, fsRead, ih]
      by_cases h1 : e.1 = n
      · by_cases h2 : m = n
        · exact absurd (h1.trans h2.symm) he
        · simp [h1, h2]
      · simp [h1]

/-- A failed open of a named file inside `transform` aborts the traversal:
the result is the state and file system produced by the successfully processed
prefix alone (already rewritten files are kept, nothing after the failing file
is touched) together with the error naming the offending path. -/
theorem transform_abort {σ α : Type} (lam : σ → α → σ × α) :
    ∀ (pre : List String) (s0 : σ) (stdin : α) (fs : List (String × α))
      (bad : String) (rest : List String),
      bad ≠ "-" → bad ∉ pre → fsRead fs bad = none →
      (∀ n ∈ pre, n = "-" ∨ (fsRead fs n).isSome = true) →
      transform lam s0 stdin fs (pre ++ bad :: rest) =
        ((transform lam s0 stdin fs pre).1,
         (transform lam s0 stdin fs pre).2.1,
         some ("failed to open " ++ bad)) ∧
      (transform lam s0 stdin fs pre).2.2 = none := by
  intro pre
  induction pre with
  | nil =>
    intro s0 stdin fs bad rest hbad _ hopen _
    refine ⟨?_, rfl⟩
    simp [transform, if_neg hbad, hopen]
  | cons n pre ih =>
    intro s0 stdin fs bad rest hbad hmem hopen hpre
    have hmem' : bad ∉ pre := fun h => hmem (List.mem_cons_of_mem n h)
    by_cases hn : n = "-"
    · subst hn
      simp only [List.cons_append, transform, if_pos rfl]
      apply ih _ stdin _ bad rest hbad hmem'
      · rw [fsRead_fsWrite, if_neg (fun h => hbad h.symm)]
        exact hopen
      · intro k hk
        rcases hpre k (List.mem_cons_of_mem _ hk) with h | h
        · exact Or.inl h
        · right
          rw [fsRead_fsWrite]
          by_cases hk2 : "-" = k
          · simp [hk2]
          · simpa [if_neg hk2] using h
    · have hread : (fsRead fs n).isSome = true := by
        rcases hpre n (List.mem_cons_self n pre) with h | h
        · exact absurd h hn
        · exact h
      obtain ⟨g, hg⟩ := Option.isSome_iff_exists.mp hread
      have hnbad : n ≠ bad := fun h => hmem (h ▸ List.mem_cons_self n pre)
      simp only [List.cons_append, transform, if_neg hn, hg]
      apply ih _ stdin _ bad rest hbad hmem'
      · rw [fsRead_fsWrite, if_neg hnbad]
        exact hopen
      · intro k hk
        rcases hpre k (List.mem_cons_of_mem _ hk) with h | h
        · exact Or.inl h
        · right
          rw [fsRead_fsWrite]
          by_cases hk2 : n = k
          · simp [hk2]
          · simpa [if_neg hk2] using h

/-- A failed open of a named file inside `for_each` aborts the traversal with
the error naming the path; the accumulated state is that of the prefix. -/
theorem for_each_abort {σ α : Type} (act : σ → α → σ) :
    ∀ (pre : List String) (s0 : σ) (stdin : α) (fs : List (String × α))
      (bad : String) (rest : List String),
      bad ≠ "-" → fsRead fs bad = none →
      (∀ n ∈ pre, n = "-" ∨ (fsRead fs n).isSome = true) →
      for_each act s0 stdin fs (pre ++ bad :: rest) =
        ((for_each act s0 stdin fs pre).1, some ("failed to open " ++ bad)) ∧
      (for_each act s0 stdin fs pre).2 = none := by
  intro pre
  induction pre with
  | nil =>
    intro s0 stdin fs bad rest hbad hopen _
    refine ⟨?_, rfl⟩
    simp [for_each, if_neg hbad, hopen]
  | cons n pre ih =>
    intro s0 stdin fs bad rest hbad hopen hpre
    by_cases hn : n = "-"
    · subst hn
      simp only [List.cons_append, for_each, if_pos rfl]
      exact ih _ stdin fs bad rest hbad hopen
        (fun k hk => hpre k (List.mem_cons_of_mem _ hk))
    · have hread : (fsRead fs n).isSome = true := by
        rcases hpre n (List.mem_cons_self n pre) with h | h
        · exact absurd h hn
        · exact h
      obtain ⟨g, hg⟩ := Option.isSome_iff_exists.mp hread
      simp only [List.cons_append, for_each, if_neg hn, hg]
      exact ih _ stdin fs bad rest hbad hopen
        (fun k hk => hpre k (List.mem_cons_of_mem _ hk))

/-- C5: in the multi-file traversals, a failure to open a named file raises an
I/O failure whose message names the offending path and aborts the whole
operation: the result does not depend on the remaining names, no retry occurs,
and files already rewritten by the mutating traversal before the failure are
kept (the returned file system is exactly the one after the successful
prefix). -/
theorem c5_open_failure_aborts {σ α : Type} (lam : σ → α → σ × α)
    (act : σ → α → σ) (s0 t0 : σ) (stdin : α) (fs : List (String × α))
    (pre : List String) (bad : String) (rest : List String)
    (hbad : bad ≠ "-") (hmem : bad ∉ pre) (hopen : fsRead fs bad = none)
    (hpre : ∀ n ∈ pre, n = "-" ∨ (fsRead fs n).isSome = true) :
    transform lam s0 stdin fs (pre ++ bad :: rest) =
      ((transform lam s0 stdin fs pre).1,
       (transform lam s0 stdin fs pre).2.1,
       some ("failed to open " ++ bad)) ∧
    (transform lam s0 stdin fs pre).2.2 = none ∧
    for_each act t0 stdin fs (pre ++ bad :: rest) =
      ((for_each act t0 stdin fs pre).1, some ("failed to open " ++ bad)) ∧
    (for_each act t0 stdin fs pre).2 = none := by
  obtain ⟨h1, h2⟩ := transform_abort lam pre s0 stdin fs bad rest hbad hmem hopen hpre
  obtain ⟨h3, h4⟩ := for_each_abort act pre t0 stdin fs bad rest hbad hopen hpre
  exact ⟨h1, h2, h3, h4⟩

/-- Witness for C5: file list `["a", "b", "c"]` over a file system containing
only `"a"`; the failure on `"b"` aborts with `"a"` already rewritten and `"c"`
untouched. -/
theorem c5_open_failure_aborts_witness :
    transform (fun (s g : Nat) => (s + g, g + 1)) 0 0 [("a", 5)]
        (["a"] ++ "b" :: ["c"]) =
      ((transform (fun (s g : Nat) => (s + g, g + 1)) 0 0 [("a", 5)] ["a"]).1,
       (transform (fun (s g : Nat) => (s + g, g + 1)) 0 0 [("a", 5)] ["a"]).2.1,
       some ("failed to open " ++ "b")) ∧
    (transform (fun (s g : Nat) => (s + g, g + 1)) 0 0 [("a", 5)] ["a"]).2.2 = none ∧
    for_each (fun (s g : Nat) => s + g) 0 0 [("a", 5)] (["a"] ++ "b" :: ["c"]) =
      ((for_each (fun (s g : Nat) => s + g) 0 0 [("a", 5)] ["a"]).1,
       some ("failed to open " ++ "b")) ∧
    (for_each (fun (s g : Nat) => s + g) 0 0 [("a", 5)] ["a"]).2 = none :=
  c5_open_failure_aborts (fun s g => (s + g, g + 1)) (fun s g => s + g) 0 0 0
    [("a", 5)] ["a"] "b" ["c"] (by decide) (by decide) (by decide) (by decide)

theorem foldl_inv {β γ : Type} (P : β → Prop) (f : β → γ → β)
    (hf : ∀ b c, P b → P (f b c)) :
    ∀ (l : List γ) (b : β), P b → P (l.foldl f b) := by
  intro l
  induction l with
  | nil => intro b hb; exact hb
  | cons x xs ih => intro b hb; exact ih (f b x) (hf b x hb)

theorem strLtB_self : ∀ l : List Char, strLtB l l = false := by
  intro l
  induction l with
  | nil => rfl
  | cons c cs ih => simp [strLtB, Nat.lt_irrefl, ih]

theorem strLt_self (s : String) : strLt s s = false := strLtB_self s.data

theorem tablesGet_tablesSet_self (tbl : NameTable) (name : String) (t : RankTable) :
    tablesGet (tablesSet tbl name t) name = t := by
  induction tbl with
  | nil => simp [tablesSet, tablesGet]
  | cons e rest ih =>
    obtain ⟨n, u⟩ := e
    by_cases h1 : strLt name n = true
    · simp [tablesSet, h1, tablesGet]
    · by_cases h2 : name = n
      · simp [tablesSet, h1, h2, tablesGet, strLt_self]
      · simp [tablesSet, h1, h2, tablesGet, ih]

theorem pairwise_le_lastRank :
    ∀ t : RankTable, List.Pairwise (fun x y => x.1 < y.1) t →
      ∀ kv ∈ t, kv.1 ≤ lastRank t := by
  intro t
  induction t with
  | nil => intro _ kv hkv; cases hkv
  | cons a tail ih =>
    intro h kv hkv
    cases tail with
    | nil =>
      rcases List.mem_cons.mp hkv with h1 | h1
      · subst h1; exact le_refl _
      · cases h1
    | cons b rest =>
      have hpair := List.pairwise_cons.mp h
      have htail := ih hpair.2
      rcases List.mem_cons.mp hkv with h1 | h1
      · subst h1
        have hab : kv.1 < b.1 := hpair.1 b (List.mem_cons_self b rest)
        have hb := htail b (List.mem_cons_self b rest)
        calc kv.1 ≤ b.1 := le_of_lt hab
          _ ≤ lastRank (b :: rest) := hb
      · exact htail kv h1

theorem tableInsert_append_of_gt {t : RankTable} {r : Int} {m : Mapping}
    (h : ∀ kv ∈ t, kv.1 < r) : tableInsert t r m = t ++ [(r, m)] := by
  induction t with
  | nil => rfl
  | cons e rest ih =>
    have he : e.1 < r := h e (List.mem_cons_self e rest)
    simp only [tableInsert, if_neg (asymm he), if_neg (ne_of_gt he)]
    rw [ih (fun kv hkv => h kv (List.mem_cons_of_mem e hkv)), Prod.mk.eta,
      List.cons_append]

theorem mem_tableInsert :
    ∀ (t : RankTable) (r : Int) (m : Mapping) (x : Int × Mapping),
      x ∈ tableInsert t r m → x = (r, m) ∨ x ∈ t := by
  intro t
  induction t with
  | nil =>
    intro r m x hx
    simp only [tableInsert, List.mem_singleton] at hx
    exact Or.inl hx
  | cons e rest ih =>
    intro r m x hx
    by_cases h1 : r < e.1
    · simp only [tableInsert, if_pos h1] at hx
      rcases List.mem_cons.mp hx with h | h
      · exact Or.inl h
      · exact Or.inr h
    · by_cases h2 : r = e.1
      · simp only [tableInsert, if_neg h1, if_pos h2] at hx
        rcases List.mem_cons.mp hx with h | h
        · exact Or.inl h
        · exact Or.inr (List.mem_cons_of_mem e h)
      · simp only [tableInsert, if_neg h1, if_neg h2] at hx
        rcases List.mem_cons.mp hx with h | h
        · exact Or.inr (h ▸ List.mem_cons_self e rest)
        · rcases ih r m x h with h' | h'
          · exact Or.inl h'
          · exact Or.inr (List.mem_cons_of_mem e h')

theorem tableInsert_pairwise :
    ∀ (t : RankTable) (r : Int) (m : Mapping),
      List.Pairwise (fun x y => x.1 < y.1) t →
      List.Pairwise (fun x y => x.1 < y.1) (tableInsert t r m) := by
  intro t
  induction t with
  | nil => intro r m _; simp [tableInsert]
  | cons e rest ih =>
    intro r m h
    have hpair := List.pairwise_cons.mp h
    by_cases h1 : r < e.1
    · simp only [tableInsert, if_pos h1]
      refine List.pairwise_cons.mpr ⟨?_, h⟩
      intro x hx
      rcases List.mem_cons.mp hx with hxe | hxr
      · exact hxe ▸ h1
      · exact lt_trans h1 (hpair.1 x hxr)
    · by_cases h2 : r = e.1
      · simp only [tableInsert, if_neg h1, if_pos h2]
        refine List.pairwise_cons.mpr ⟨?_, hpair.2⟩
        intro x hx
        exact h2 ▸ hpair.1 x hx
      · simp only [tableInsert, if_neg h1, if_neg h2]
        refine List.pairwise_cons.mpr ⟨?_, ih r m hpair.2⟩
        intro x hx
        rcases mem_tableInsert rest r m x hx with h' | h'
        · have : e.1 < r := lt_of_le_of_ne (not_lt.mp h1) (fun hh => h2 hh.symm)
          exact h' ▸ this
        · exact hpair.1 x h'

theorem tablesGet_sorted {tbl : NameTable} (name : String)
    (h : ∀ e ∈ tbl, List.Pairwise (fun x y => x.1 < y.1) e.2) :
    List.Pairwise (fun x y => x.1 < y.1) (tablesGet tbl name) := by
  induction tbl with
  | nil => simp [tablesGet]
  | cons e rest ih =>
    obtain ⟨n, u⟩ := e
    by_cases h1 : name = n
    · simpa [tablesGet, h1] using h (n, u) (List.mem_cons_self (n, u) rest)
    · simpa [tablesGet, h1] using
        ih (fun x hx => h x (List.mem_cons_of_mem (n, u) hx))

theorem tablesSet_sorted {tbl : NameTable} (name : String) (t : RankTable)
    (h : ∀ e ∈ tbl, List.Pairwise (fun x y => x.1 < y.1) e.2)
    (ht : List.Pairwise (fun x y => x.1 < y.1) t) :
    ∀ e ∈ tablesSet tbl name t, List.Pairwise (fun x y => x.1 < y.1) e.2 := by
  induction tbl with
  | nil =>
    intro e he
    simp only [tablesSet, List.mem_singleton] at he
    exact he ▸ ht
  | cons a rest ih =>
    intro e he
    obtain ⟨n, u⟩ := a
    simp only [tablesSet] at he
    by_cases h1 : strLt name n = true
    · rw [if_pos h1] at he
      rcases List.mem_cons.mp he with h' | h'
      · exact h' ▸ ht
      · exact h e h'
    · rw [if_neg h1] at he
      by_cases h2 : name = n
      · subst h2
        rw [if_pos rfl] at he
        rcases List.mem_cons.mp he with h' | h'
        · exact h' ▸ ht
        · exact h e (List.mem_cons_of_mem (name, u) h')
      · rw [if_neg h2] at he
        rcases List.mem_cons.mp he with h' | h'
        · exact h' ▸ h (n, u) (List.mem_cons_self (n, u) rest)
        · exact ih (fun x hx => h x (List.mem_cons_of_mem (n, u) hx)) e h'

theorem fileMapping_sorted {tbl : NameTable} (name : String) (m : Mapping)
    (h : ∀ e ∈ tbl, List.Pairwise (fun x y => x.1 < y.1) e.2) :
    ∀ e ∈ fileMapping tbl name m, List.Pairwise (fun x y => x.1 < y.1) e.2 := by
  unfold fileMapping
  exact tablesSet_sorted name _ h
    (tableInsert_pairwise _ _ _ (tablesGet_sorted name h))

theorem filePath_sorted {tbl : NameTable} (p : Path)
    (h : ∀ e ∈ tbl, List.Pairwise (fun x y => x.1 < y.1) e.2) :
    ∀ e ∈ filePath tbl p, List.Pairwise (fun x y => x.1 < y.1) e.2 := by
  unfold filePath
  exact foldl_inv (fun tb => ∀ e ∈ tb, List.Pairwise (fun x y => x.1 < y.1) e.2)
    (fun tb m => fileMapping tb p.name m)
    (fun tb m hb => fileMapping_sorted p.name m hb) p.mappings tbl h

theorem to_xg_tables_sorted (tk : String → Bool) (files : List (List Graph)) :
    ∀ e ∈ (to_xg tk files).1, List.Pairwise (fun x y => x.1 < y.1) e.2 := by
  unfold to_xg
  have hfile : ∀ (st : NameTable × List Graph × List (String × Path)) chunks,
      (∀ e ∈ st.1, List.Pairwise (fun x y => x.1 < y.1) e.2) →
      ∀ e ∈ (processFile tk st chunks).1,
        List.Pairwise (fun x y => x.1 < y.1) e.2 := by
    intro st chunks hst
    unfold processFile
    have hchunks : ∀ e ∈ (chunks.foldl (handle_graph tk) (st.1, st.2.1)).1,
        List.Pairwise (fun x y => x.1 < y.1) e.2 := by
      refine foldl_inv
        (fun q : NameTable × List Graph =>
          ∀ e ∈ q.1, List.Pairwise (fun x y => x.1 < y.1) e.2)
        (handle_graph tk) ?_ chunks (st.1, st.2.1) hst
      intro q g hq
      unfold handle_graph
      exact foldl_inv (fun tb => ∀ e ∈ tb, List.Pairwise (fun x y => x.1 < y.1) e.2)
        filePath (fun tb p hb => filePath_sorted p hb) _ q.1 hq
    intro e he
    unfold flattenAll at he
    simp only [List.mem_map] at he
    obtain ⟨a, ha, rfl⟩ := he
    have := hchunks a ha
    simpa [List.pairwise_map] using this
  exact foldl_inv _ (processFile tk) hfile files ([], [], [])
    (by intro e he; cases he)

/-- C10: in `to_xg`'s per-name table, each (name, rank) key holds at most one
mapping - the rank keys of every per-name table are strictly increasing for
every input - and when two matching mappings with the same name and the same
explicit nonzero rank arrive in two chunks, the later one replaces the
earlier, so the reassembled `Path` holds the last-arrived mapping for that
rank. -/
theorem c10_rank_keys_unique :
    (∀ (tk : String → Bool) (files : List (List Graph)),
      ∀ e ∈ (to_xg tk files).1, List.Pairwise (fun x y => x.1 < y.1) e.2) ∧
    (∀ (name : String) (r : Int) (m1 m2 : Mapping),
      r ≠ 0 → m1.rank = r → m2.rank = r →
      (to_xg (fun n => n == name)
        [[⟨[], [⟨name, [m1]⟩]⟩, ⟨[], [⟨name, [m2]⟩]⟩]]).2.2 =
        [(name, ⟨name, [m2]⟩)]) := by
  constructor
  · exact to_xg_tables_sorted
  · intro name r m1 m2 h0 h1 h2
    obtain ⟨n1, r1⟩ := m1
    obtain ⟨n2, r2⟩ := m2
    have h1' : r1 = r := h1
    have h2' : r2 = r := h2
    subst h1'
    subst h2'
    simp [to_xg, processFile, handle_graph, splitPaths, filePath, fileMapping,
      tablesGet, tablesSet, tableInsert, flattenAll, removedSet, h0,
      lt_self_iff_false, strLt_self]

/-- Witness for C10: two chunks carrying rank 5 for path `Q`; the later
mapping (node 2) wins. -/
theorem c10_rank_keys_unique_witness :
    (to_xg (fun n => n == "Q")
      [[⟨[], [⟨"Q", [⟨1, 5⟩]⟩]⟩, ⟨[], [⟨"Q", [⟨2, 5⟩]⟩]⟩]]).2.2 =
      [("Q", ⟨"Q", [⟨2, 5⟩]⟩)] :=
  c10_rank_keys_unique.2 "Q" 5 ⟨1, 5⟩ ⟨2, 5⟩ (by decide) rfl rfl

/-- C3: a matching mapping whose stored rank is 0 is filed under the current
largest rank plus one when the per-name table is non-empty (the table's last
key bounds every key), else under rank 1; consequently three unranked
mappings for one path arriving in chunks A, B, C receive ranks 1, 2, 3 in
arrival order. -/
theorem c3_unranked_rank_synthesis :
    (∀ (tbl : NameTable) (name : String) (m : Mapping), m.rank = 0 →
      List.Pairwise (fun x y => x.1 < y.1) (tablesGet tbl name) →
      (∀ kv ∈ tablesGet tbl name, kv.1 ≤ lastRank (tablesGet tbl name)) ∧
      tablesGet (fileMapping tbl name m) name =
        tablesGet tbl name ++
          [((if (tablesGet tbl name).length > 0
              then lastRank (tablesGet tbl name) + 1 else 1),
            { m with
              rank := if (tablesGet tbl name).length > 0
                then lastRank (tablesGet tbl name) + 1 else 1 })]) ∧
    (to_xg (fun n => n == "P")
      [[⟨[], [⟨"P", [⟨10, 0⟩]⟩]⟩, ⟨[], [⟨"P", [⟨20, 0⟩]⟩]⟩,
        ⟨[], [⟨"P", [⟨30, 0⟩]⟩]⟩]]).2.2 =
      [("P", ⟨"P", [⟨10, 1⟩, ⟨20, 2⟩, ⟨30, 3⟩]⟩)] := by
  constructor
  · intro tbl name m h0 hsort
    have hub := pairwise_le_lastRank _ hsort
    refine ⟨hub, ?_⟩
    simp only [fileMapping, h0, if_pos, if_true]
    rw [tablesGet_tablesSet_self]
    by_cases hne : (tablesGet tbl name).length > 0
    · simp only [hne, if_pos]
      refine tableInsert_append_of_gt ?_
      intro kv hkv
      have := hub kv hkv
      omega
    · have : tablesGet tbl name = [] := List.length_eq_zero.mp (by omega)
      simp [this, tableInsert]
  · decide

/-- Witness for C3 on a table already holding rank 1: the unranked mapping is
filed at rank 2. -/
theorem c3_unranked_rank_synthesis_witness :
    (∀ kv ∈ tablesGet [("P", [((1 : Int), (⟨7, 1⟩ : Mapping))])] "P",
      kv.1 ≤ lastRank (tablesGet [("P", [((1 : Int), (⟨7, 1⟩ : Mapping))])] "P")) ∧
    tablesGet (fileMapping [("P", [((1 : Int), (⟨7, 1⟩ : Mapping))])] "P" ⟨9, 0⟩) "P" =
      tablesGet [("P", [((1 : Int), (⟨7, 1⟩ : Mapping))])] "P" ++
        [((if (tablesGet [("P", [((1 : Int), (⟨7, 1⟩ : Mapping))])] "P").length > 0
            then lastRank (tablesGet [("P", [((1 : Int), (⟨7, 1⟩ : Mapping))])] "P") + 1
            else 1),
          { (⟨9, 0⟩ : Mapping) with
            rank := if (tablesGet [("P", [((1 : Int), (⟨7, 1⟩ : Mapping))])] "P").length > 0
              then lastRank (tablesGet [("P", [((1 : Int), (⟨7, 1⟩ : Mapping))])] "P") + 1
              else 1 })] :=
  c3_unranked_rank_synthesis.1 [("P", [(1, ⟨7, 1⟩)])] "P" ⟨9, 0⟩ rfl (by decide)

theorem splitPaths_go (tk : String → Bool) :
    ∀ (ps : List Path) (a b : List Path),
      ps.foldl
        (fun acc p =>
          if tk p.name then (acc.1 ++ [p], acc.2) else (acc.1, acc.2 ++ [p]))
        (a, b) =
      (a ++ ps.filter (fun p => tk p.name), b ++ ps.filter (fun p => !tk p.name)) := by
  intro ps
  induction ps with
  | nil => intro a b; simp
  | cons p rest ih =>
    intro a b
    by_cases hp : tk p.name
    · simp only [List.foldl_cons, hp, if_pos, List.filter_cons, Bool.not_true, ih]
      simp [hp]
    · simp only [List.foldl_cons, hp, if_neg, List.filter_cons, ih]
      simp [hp]

/-- C4: per chunk, exactly the matching paths are removed from the forwarded
chunk, kept paths appearing in original relative order (the kept list is the
order-preserving filter of the chunk's paths); a chunk with matching `P1` and
non-matching `P2` forwards only `P2`'s mappings while `P1` is returned in the
extracted mapping. -/
theorem c4_forwarded_chunk_filter :
    (∀ (tk : String → Bool) (ps : List Path),
      (splitPaths tk ps).1 = ps.filter (fun p => tk p.name) ∧
      (splitPaths tk ps).2 = ps.filter (fun p => !tk p.name)) ∧
    (∀ (tk : String → Bool) (st : NameTable × List Graph) (g : Graph),
      (handle_graph tk st g).2 =
        st.2 ++ [{ g with paths := g.paths.filter (fun p => !tk p.name) }]) ∧
    (to_xg (fun n => n == "P1")
      [[⟨[1, 2], [⟨"P1", [⟨5, 1⟩]⟩, ⟨"P2", [⟨6, 1⟩]⟩]⟩]]).2.1 =
      [⟨[1, 2], [⟨"P2", [⟨6, 1⟩]⟩]⟩] ∧
    (to_xg (fun n => n == "P1")
      [[⟨[1, 2], [⟨"P1", [⟨5, 1⟩]⟩, ⟨"P2", [⟨6, 1⟩]⟩]⟩]]).2.2 =
      [("P1", ⟨"P1", [⟨5, 1⟩]⟩)] := by
  refine ⟨?_, ?_, by decide, by decide⟩
  · intro tk ps
    unfold splitPaths
    rw [splitPaths_go]
    simp
  · intro tk st g
    unfold handle_graph
    simp only [splitPaths, splitPaths_go]
    simp

/-- C2 (code divergence witness): the reconstitution loop of `to_xg` (lines
148-161) sits inside the per-file loop and moves each stored mapping out of
the accumulated table, so a second file - even one decoding to no chunks -
re-flattens the table and replaces the extracted mapping of the first file
with a moved-from (default) message, instead of covering all matching
mappings of all files; with a single file the extraction is intact. -/
theorem c2_flatten_inside_file_loop_bug :
    (to_xg (fun n => n == "P") [[⟨[], [⟨"P", [⟨7, 1⟩]⟩]⟩], []]).2.2 =
      [("P", ⟨"P", [⟨0, 0⟩]⟩)] ∧
    (to_xg (fun n => n == "P") [[⟨[], [⟨"P", [⟨7, 1⟩]⟩]⟩]]).2.2 =
      [("P", ⟨"P", [⟨7, 1⟩]⟩)] ∧
    (⟨0, 0⟩ : Mapping) ≠ ⟨7, 1⟩ := by
  refine ⟨by decide, by decide, by decide⟩

theorem cache_kmer_flush (buf : List KmerMatch) (ws : List (List KmerMatch))
    (kmer : String) (nid p : Int) (b : Bool) (hk : allATGC kmer = true)
    (hb : buf.length + 1 > buffer_max_size) :
    cache_kmer ⟨buf, ws⟩ kmer nid p b =
      ⟨[], ws ++ [buf ++ [⟨kmer, nid, p, b⟩]]⟩ := by
  simp only [cache_kmer, hk, if_true]
  rw [if_pos (by simpa [List.length_append] using hb)]

theorem cache_kmer_no_flush (buf : List KmerMatch) (ws : List (List KmerMatch))
    (kmer : String) (nid p : Int) (b : Bool) (hk : allATGC kmer = true)
    (hb : ¬ buf.length + 1 > buffer_max_size) :
    cache_kmer ⟨buf, ws⟩ kmer nid p b = ⟨buf ++ [⟨kmer, nid, p, b⟩], ws⟩ := by
  simp only [cache_kmer, hk, if_true]
  rw [if_neg (by simpa [List.length_append] using hb)]

theorem run_kmers_fill (km : String × Int × Int × Bool) (hk : allATGC km.1 = true) :
    ∀ (n : Nat) (buf : List KmerMatch) (ws : List (List KmerMatch)),
      buf.length + n ≤ buffer_max_size →
      run_kmers ⟨buf, ws⟩ (List.replicate n km) =
        ⟨buf ++ List.replicate n ⟨km.1, km.2.1, km.2.2.1, km.2.2.2⟩, ws⟩ := by
  intro n
  induction n with
  | zero => intro buf ws _; simp [run_kmers]
  | succ n ih =>
    intro buf ws hle
    rw [List.replicate_succ]
    simp only [run_kmers, List.foldl_cons]
    have hstep : cache_kmer ⟨buf, ws⟩ km.1 km.2.1 km.2.2.1 km.2.2.2 =
        ⟨buf ++ [⟨km.1, km.2.1, km.2.2.1, km.2.2.2⟩], ws⟩ :=
      cache_kmer_no_flush buf ws _ _ _ _ hk (by omega)
    rw [hstep]
    have hrec := ih (buf ++ [⟨km.1, km.2.1, km.2.2.1, km.2.2.2⟩]) ws
      (by simp only [List.length_append, List.length_singleton]; omega)
    simp only [run_kmers] at hrec
    rw [hrec]
    simp [List.append_assoc, List.replicate_succ]

/-- C6: a worker's buffer is bounded by the 100,000-entry threshold: an
append that makes the size exceed the threshold triggers exactly one inline
batched write of the whole buffer followed by a clear, and any other append
only grows the buffer; inserting 100,001 valid matches into one empty buffer
hence triggers exactly one inline flush (of all 100,001 entries, at the
threshold crossing) and leaves the empty remainder for the final flush, which
is issued once more for the buffer. -/
theorem c6_buffer_flush_boundary :
    (∀ (buf : List KmerMatch) (ws : List (List KmerMatch)) (kmer : String)
      (nid p : Int) (b : Bool),
      allATGC kmer = true → buf.length + 1 > buffer_max_size →
      cache_kmer ⟨buf, ws⟩ kmer nid p b =
        ⟨[], ws ++ [buf ++ [⟨kmer, nid, p, b⟩]]⟩) ∧
    (∀ (buf : List KmerMatch) (ws : List (List KmerMatch)) (kmer : String)
      (nid p : Int) (b : Bool),
      allATGC kmer = true → ¬ buf.length + 1 > buffer_max_size →
      cache_kmer ⟨buf, ws⟩ kmer nid p b = ⟨buf ++ [⟨kmer, nid, p, b⟩], ws⟩) ∧
    run_kmers ⟨[], []⟩ (List.replicate 100001 ("A", 1, 0, false)) =
      ⟨[], [List.replicate 100001 ⟨"A", 1, 0, false⟩]⟩ ∧
    index_kmers_worker (List.replicate 100001 ("A", 1, 0, false)) =
      ⟨[], [List.replicate 100001 ⟨"A", 1, 0, false⟩, []]⟩ := by
  have hk : allATGC "A" = true := by decide
  have hc : run_kmers ⟨[], []⟩
        (List.replicate 100001 ("A", (1 : Int), (0 : Int), false)) =
      ⟨[], [List.replicate 100001 (⟨"A", 1, 0, false⟩ : KmerMatch)]⟩ := by
    have h1 : (100001 : Nat) = 100000 + 1 := rfl
    have hfill := run_kmers_fill ("A", (1 : Int), (0 : Int), false) hk 100000 [] []
      (by simp [buffer_max_size])
    simp only [run_kmers, List.nil_append] at hfill
    rw [h1, List.replicate_succ']
    simp only [run_kmers, List.foldl_append]
    rw [hfill]
    have hstep : ∀ st : KmerState,
        List.foldl (fun st k => cache_kmer st k.1 k.2.1 k.2.2.1 k.2.2.2) st
          [("A", (1 : Int), (0 : Int), false)] = cache_kmer st "A" 1 0 false :=
      fun st => rfl
    rw [hstep]
    have hflush := cache_kmer_flush
      (List.replicate 100000 (⟨"A", 1, 0, false⟩ : KmerMatch)) []
      "A" 1 0 false hk
      (by simp only [List.length_replicate, buffer_max_size]; omega)
    rw [hflush]
    conv_rhs => rw [List.replicate_succ']
    simp only [List.nil_append]
  refine ⟨?_, ?_, hc, ?_⟩
  · intro buf ws kmer nid p b h1 h2
    exact cache_kmer_flush buf ws kmer nid p b h1 h2
  · intro buf ws kmer nid p b h1 h2
    exact cache_kmer_no_flush buf ws kmer nid p b h1 h2
  · simp only [index_kmers_worker, hc]
    rfl

/-- Witness for C6: an append to a buffer already holding 100,000 entries
flushes inline. -/
theorem c6_buffer_flush_boundary_witness :
    cache_kmer ⟨List.replicate 100000 (⟨"A", 1, 0, false⟩ : KmerMatch), []⟩
        "A" 1 0 false =
      ⟨[], [] ++ [List.replicate 100000 (⟨"A", 1, 0, false⟩ : KmerMatch) ++
        [⟨"A", 1, 0, false⟩]]⟩ :=
  c6_buffer_flush_boundary.1 (List.replicate 100000 ⟨"A", 1, 0, false⟩) []
    "A" 1 0 false (by decide)
    (by simp only [List.length_replicate, buffer_max_size]; omega)

theorem commaJoinStrs_ne_nil {ps : List (List Char)} (h : ps ≠ []) :
    commaJoinStrs ps ≠ [] := by
  cases ps with
  | nil => exact absurd rfl h
  | cons p rest => simp [commaJoinStrs]

theorem commaJoin_ne_nil {cs : List Char} (h : cs ≠ []) : commaJoin cs ≠ [] := by
  cases cs with
  | nil => exact absurd rfl h
  | cons c rest => simp [commaJoin]

theorem commaJoinStrs_dropLast :
    ∀ ps : List (List Char), ps ≠ [] →
      (commaJoinStrs ps).dropLast = commaSeparated ps := by
  intro ps
  induction ps with
  | nil => intro h; exact absurd rfl h
  | cons p rest ih =>
    intro _
    cases rest with
    | nil =>
      show ((p ++ [',']) ++ commaJoinStrs []).dropLast = commaSeparated [p]
      simp [commaJoinStrs, commaSeparated, List.dropLast_concat]
    | cons q rest2 =>
      have hne : commaJoinStrs (q :: rest2) ≠ [] :=
        commaJoinStrs_ne_nil (List.cons_ne_nil q rest2)
      show ((p ++ [',']) ++ commaJoinStrs (q :: rest2)).dropLast =
        commaSeparated (p :: q :: rest2)
      rw [List.dropLast_append_of_ne_nil _ hne, ih (List.cons_ne_nil q rest2)]
      show (p ++ [',']) ++ commaSeparated (q :: rest2) =
        p ++ [','] ++ commaSeparated (q :: rest2)
      rw [List.append_assoc]

theorem commaJoin_dropLast :
    ∀ cs : List Char, cs ≠ [] →
      (commaJoin cs).dropLast = commaSeparated (cs.map (fun c => [c])) := by
  intro cs
  induction cs with
  | nil => intro h; exact absurd rfl h
  | cons c rest ih =>
    intro _
    cases rest with
    | nil =>
      show (([c] ++ [',']) ++ commaJoin []).dropLast = commaSeparated [[c]]
      simp [commaJoin, commaSeparated, List.dropLast_concat]
    | cons d rest2 =>
      have hne : commaJoin (d :: rest2) ≠ [] :=
        commaJoin_ne_nil (List.cons_ne_nil d rest2)
      show (([c] ++ [',']) ++ commaJoin (d :: rest2)).dropLast =
        commaSeparated ([c] :: (d :: rest2).map (fun c => [c]))
      rw [List.dropLast_append_of_ne_nil _ hne, ih (List.cons_ne_nil d rest2)]
      show ([c] ++ [',']) ++ commaSeparated ((d :: rest2).map (fun c => [c])) =
        [c] ++ [','] ++ commaSeparated ([d] :: rest2.map (fun c => [c]))
      rw [List.append_assoc]
      rfl

/-- C7: every record of the text-format k-mer export is five TAB-separated
columns: the k-mer; the `node:offset` position; the comma-joined predecessor
characters with no trailing comma, or `$` when there is none; the comma-joined
successor characters with no trailing comma, or `#` when there is none; and
the comma-joined next positions or the boundary sentinel node at offset 0 when
there are none.  The concrete case of the spec (no predecessor, successors
`{A, C}`) is rendered with `$` and `A,C`. -/
theorem c7_gcsa_text_record :
    (∀ (sid : Int) (kp : KmerPosition),
      write_kmer_line sid kp =
        kp.kmer ++ ['\t'] ++ kp.pos ++ ['\t'] ++
        (if kp.prev_chars.isEmpty then ['$']
          else commaSeparated (kp.prev_chars.map (fun c => [c]))) ++ ['\t'] ++
        (if kp.next_chars.isEmpty then ['#']
          else commaSeparated (kp.next_chars.map (fun c => [c]))) ++ ['\t'] ++
        (if kp.next_positions.isEmpty then (toString sid).data ++ [':', '0']
          else commaSeparated kp.next_positions)) ∧
    write_kmer_line 5
        ⟨['A', 'C'], ['1', ':', '0'], [], ['A', 'C'], [['2', ':', '0']]⟩ =
      ['A', 'C', '\t', '1', ':', '0', '\t', '$', '\t', 'A', ',', 'C', '\t',
        '2', ':', '0'] := by
  constructor
  · intro sid kp
    have hcol3 : (if kp.prev_chars.isEmpty then ['$']
        else (commaJoin kp.prev_chars).dropLast) =
        (if kp.prev_chars.isEmpty then ['$']
          else commaSeparated (kp.prev_chars.map (fun c => [c]))) := by
      by_cases hp : kp.prev_chars.isEmpty
      · simp [hp]
      · simp only [hp, if_false, Bool.false_eq_true]
        exact commaJoin_dropLast _ (by simpa [List.isEmpty_iff] using hp)
    have hcol4 : (if kp.next_chars.isEmpty then ['#']
        else (commaJoin kp.next_chars).dropLast) =
        (if kp.next_chars.isEmpty then ['#']
          else commaSeparated (kp.next_chars.map (fun c => [c]))) := by
      by_cases hp : kp.next_chars.isEmpty
      · simp [hp]
      · simp only [hp, if_false, Bool.false_eq_true]
        exact commaJoin_dropLast _ (by simpa [List.isEmpty_iff] using hp)
    simp only [write_kmer_line, hcol3, hcol4]
    by_cases hnp : kp.next_positions.isEmpty
    · have hnp' : kp.next_positions = [] := List.isEmpty_iff.mp hnp
      simp only [hnp', List.isEmpty_nil, if_true, commaJoinStrs, List.map_nil,
        List.flatten_nil, List.append_nil, List.append_assoc]
    · have hnp' : kp.next_positions ≠ [] := by simpa [List.isEmpty_iff] using hnp
      simp only [hnp, if_false, Bool.false_eq_true]
      rw [List.dropLast_append_of_ne_nil _ (commaJoinStrs_ne_nil hnp'),
        commaJoinStrs_dropLast _ hnp']
  · decide

theorem write_gcsa_out_old_streams (sid : Int) :
    ∀ (kps : List KmerPosition) (out cout : List (List Char)),
      write_gcsa_out_old sid kps out cout =
        (out, cout ++ kps.map (write_kmer_line sid)) := by
  intro kps
  induction kps with
  | nil => intro out cout; simp [write_gcsa_out_old]
  | cons kp rest ih =>
    intro out cout
    rw [write_gcsa_out_old, ih]
    simp

theorem write_gcsa_out_handle_streams :
    ∀ (ks out cout : List (List Char)),
      write_gcsa_out_handle ks out cout = (out, cout ++ ks) := by
  intro ks
  induction ks with
  | nil => intro out cout; simp [write_gcsa_out_handle]
  | cons k rest ih =>
    intro out cout
    rw [write_gcsa_out_handle, ih]
    simp

/-- C9: `write_gcsa_out_old` and `write_gcsa_out_handle` ignore their `out`
stream entirely: for every input, the caller-supplied stream comes back
unchanged (it receives no record) while every produced record goes to the
process's standard output stream. -/
theorem c9_out_stream_ignored :
    (∀ (sid : Int) (kps : List KmerPosition) (out cout : List (List Char)),
      (write_gcsa_out_old sid kps out cout).1 = out ∧
      (write_gcsa_out_old sid kps out cout).2 =
        cout ++ kps.map (write_kmer_line sid)) ∧
    (∀ (ks out cout : List (List Char)),
      (write_gcsa_out_handle ks out cout).1 = out ∧
      (write_gcsa_out_handle ks out cout).2 = cout ++ ks) := by
  constructor
  · intro sid kps out cout
    rw [write_gcsa_out_old_streams sid kps out cout]
    exact ⟨rfl, rfl⟩
  · intro ks out cout
    rw [write_gcsa_out_handle_streams ks out cout]
    exact ⟨rfl, rfl⟩

end VGset
